import Mathlib

/-
Verification of the binary state-change log reader and block-height gap
analyzer implemented in tools/analyze_state_changes.py.

Modelling conventions:
- Python byte strings become List Nat (each element a byte value 0..255).
- Python integers are unbounded, so Nat/Int model them exactly; the only
  subtraction that can go below zero in the source (missing-block count)
  is modelled with Int.
- File handles are modelled by the byte list plus an explicit position:
  a positioned read of n bytes at p over file f is (f.drop p).take n,
  which also captures short reads near the end of the file.
- The streaming uvarint reader advances the file cursor, so its model
  returns the consumed byte count alongside the value; the in-memory
  decoder already returns the new offset in the source.
-/

set_option maxRecDepth 8000

/-- Core loop of read_uvarint (the streaming decoder): accumulate 7 low bits
per byte, shifted by the running shift; stop on the first byte with the top
bit clear; return none when the stream ends first (f.read(1) empty).
Returns the decoded value together with the number of bytes consumed. -/
def read_uvarint_go : List Nat → Nat → Nat → Option (Nat × Nat)
  | [], _, _ => none
  | b :: rest, result, shift =>
    if b &&& 128 = 0 then some (result ||| ((b &&& 127) <<< shift), 1)
    else
      match read_uvarint_go rest (result ||| ((b &&& 127) <<< shift)) (shift + 7) with
      | none => none
      | some (v, c) => some (v, c + 1)

/-- read_uvarint(f) of the source, reading from the byte stream bs. -/
def read_uvarint (bs : List Nat) : Option (Nat × Nat) :=
  read_uvarint_go bs 0 0

/-- Core loop of read_uvarint_from_bytes: same accumulation, but the loop
condition is pos < len(data), so an exhausted slice ends the loop and the
partially accumulated value is returned with the final position; no failure
is signalled. Returns (value, bytes consumed from this slice). -/
def ruv_go : List Nat → Nat → Nat → Nat × Nat
  | [], result, _ => (result, 0)
  | b :: rest, result, shift =>
    if b &&& 128 = 0 then (result ||| ((b &&& 127) <<< shift), 1)
    else
      let vc := ruv_go rest (result ||| ((b &&& 127) <<< shift)) (shift + 7)
      (vc.1, vc.2 + 1)

/-- read_uvarint_from_bytes(data, offset) of the source: returns
(value, new_offset). When offset is at or past the end, the loop body never
runs and (0, offset) is returned. -/
def read_uvarint_from_bytes (data : List Nat) (offset : Nat) : Nat × Nat :=
  let vc := ruv_go (data.drop offset) 0 0
  (vc.1, offset + vc.2)

/-- Little-endian byte-list value, as computed by struct.unpack of an
unsigned 64-bit little-endian field (the Q format). -/
def leBytesToNat : List Nat → Nat
  | [] => 0
  | b :: rest => b + 256 * leBytesToNat rest

/-- struct.unpack of format Q demands exactly 8 bytes and raises otherwise;
the raise is modelled as none. -/
def structUnpackU64 (s : List Nat) : Option Nat :=
  if s.length = 8 then some (leBytesToNat s) else none

/-- Python index clamping for one endpoint of a slice of a list of length n:
negative indices count from the end and clamp at 0, nonnegative ones clamp
at n. -/
def pySliceIdx (n : Nat) (i : Int) : Nat :=
  if i < 0 then (i + n).toNat else min i.toNat n

/-- Python slice l[start:stop] with unit step. -/
def pySlice {α : Type} (l : List α) (start stop : Int) : List α :=
  (l.take (pySliceIdx l.length stop)).drop (pySliceIdx l.length start)

/-- Candidate-window loop of parse_state_change_entry: for each
offset_from_end in the given list, if the payload is long enough, unpack
entry_bytes[-offset_from_end:-offset_from_end+8] as little-endian u64
(an unpack failure is swallowed by the bare except) and accept the first
candidate c with 0 < c < 100000000. -/
def tryWindows (e : List Nat) : List Nat → Option Nat
  | [] => none
  | o :: rest =>
    if o ≤ e.length then
      match structUnpackU64 (pySlice e (-(o : Int)) (-(o : Int) + 8)) with
      | some c => if 0 < c ∧ c < 100000000 then some c else tryWindows e rest
      | none => tryWindows e rest
    else tryWindows e rest

/-- parse_state_change_entry(entry_bytes): decodes the header
[operation type varint][is reverted byte][encoder type varint] and, for
encoder type 2 with at least 24 payload bytes, runs the trailing-window
height heuristic. Returns (encoder type, block height), each optional. -/
def parse_state_change_entry (e : List Nat) : Option Nat × Option Nat :=
  if e.length < 3 then (none, none)
  else
    let pos1 := (read_uvarint_from_bytes e 0).2
    if pos1 ≥ e.length then (none, none)
    else
      let pos2 := pos1 + 1
      if pos2 ≥ e.length then (none, none)
      else
        let encoder_type := (read_uvarint_from_bytes e pos2).1
        let block_height :=
          if encoder_type = 2 ∧ 24 ≤ e.length then
            tryWindows e [8, 16, 24, 32, 40, 48]
          else none
        (some encoder_type, block_height)

/-- Mutable state of the scan loop in analyze_state_changes. -/
structure ScanState where
  block_heights : List (Nat × Nat)
  encoder_types_count : List (Nat × Nat)
  max_height : Nat
  min_height : Option Nat
  block_count : Nat
  parse_errors : Nat
  debug_count : Nat
deriving DecidableEq

/-- Initial scan state: empty height map and counters; min_height starts at
float inf, modelled as none. -/
def initState : ScanState :=
  { block_heights := [], encoder_types_count := [], max_height := 0,
    min_height := none, block_count := 0, parse_errors := 0, debug_count := 0 }

/-- defaultdict(int) increment used for encoder_types_count. -/
def countIncr (m : List (Nat × Nat)) (k : Nat) : List (Nat × Nat) :=
  if ∃ q ∈ m, q.1 = k then
    m.map (fun p => if p.1 = k then (p.1, p.2 + 1) else p)
  else m ++ [(k, 1)]

/-- Python dict assignment block_heights[height] = entry_idx: overwrite the
existing binding when the key is present, append a new one otherwise. -/
def mapInsert (m : List (Nat × Nat)) (k v : Nat) : List (Nat × Nat) :=
  if ∃ q ∈ m, q.1 = k then
    m.map (fun p => if p.1 = k then (k, v) else p)
  else m ++ [(k, v)]

/-- Per-entry bookkeeping after parsing (source lines 166-191): count the
encoder type and the debug preview when a type was decoded, then, for a
block entry with an extracted height passing the sanity bound, record the
height, bump the block counter and maintain min/max. The Python test
"encoder_type == 2 and block_height is not None" is rendered as nested
tests on the same two conditions; both operands are pure, so the order of
evaluation is immaterial. -/
def observeStep (s : ScanState) (entry_idx : Nat)
    (encoder_type block_height : Option Nat) : ScanState :=
  let s1 :=
    match encoder_type with
    | some et =>
      { s with
        encoder_types_count := countIncr s.encoder_types_count et,
        debug_count := if s.debug_count < 50 then s.debug_count + 1 else s.debug_count }
    | none => s
  match block_height with
  | none => s1
  | some bh =>
    if encoder_type = some 2 then
      if 0 < bh ∧ bh < 100000000 then
        { s1 with
          block_heights := mapInsert s1.block_heights bh entry_idx,
          block_count := s1.block_count + 1,
          max_height := if s1.max_height < bh then bh else s1.max_height,
          min_height :=
            match s1.min_height with
            | none => some bh
            | some m => if bh < m then some bh else some m }
      else s1
    else s1

/-- Body of the scan loop for one index ordinal: read the 8-byte index
entry (skip on short read), decode it as the data-file offset, read the
length uvarint there (skip when the stream ends or the length exceeds the
10 MiB ceiling), read the payload (skip on short read), parse it and fold
the result into the state. Every skip leaves the state untouched. -/
def scanStep (indexBytes dataBytes : List Nat) (entry_idx : Nat)
    (s : ScanState) : ScanState :=
  let index_bytes := (indexBytes.drop (entry_idx * 8)).take 8
  if index_bytes.length ≠ 8 then s
  else
    let db_index := leBytesToNat index_bytes
    match read_uvarint (dataBytes.drop db_index) with
    | none => s
    | some (entry_length, consumed) =>
      if entry_length > 10 * 1024 * 1024 then s
      else
        let entry_bytes := ((dataBytes.drop db_index).drop consumed).take entry_length
        if entry_bytes.length ≠ entry_length then s
        else
          let eb := parse_state_change_entry entry_bytes
          observeStep s entry_idx eb.1 eb.2

/-- Whole scan: total_entries = index_size / 8 ordinals, in order. -/
def scanBytes (indexBytes dataBytes : List Nat) : ScanState :=
  (List.range (indexBytes.length / 8)).foldl
    (fun s i => scanStep indexBytes dataBytes i s) initState

/-- Gap analyzer feed: the accepted (height, ordinal) observations folded
through the same observeStep the scan uses, starting from the fresh state. -/
def processObservations (obs : List (Nat × Nat)) : ScanState :=
  obs.foldl (fun s p => observeStep s p.2 (some 2) (some p.1)) initState

/-- Gap detection over the ascending height list (source lines 272-280):
for each consecutive pair with next different from current + 1, emit the
gap (current + 1, next - 1). -/
def find_gaps : List Nat → List (Nat × Nat)
  | a :: b :: rest =>
    (if b ≠ a + 1 then [(a + 1, b - 1)] else []) ++ find_gaps (b :: rest)
  | _ => []

/-- sorted(block_heights.keys()): the distinct observed heights, ascending. -/
def sortedHeights (m : List (Nat × Nat)) : List Nat :=
  List.insertionSort (· ≤ ·) (m.map Prod.fst)

/-- Sorted observed heights of a completed scan. -/
def scanHeights (indexBytes dataBytes : List Nat) : List Nat :=
  sortedHeights (scanBytes indexBytes dataBytes).block_heights

/-- Block-range summary printed after the scan. missing is an Int because
the source computes it as a plain Python subtraction. -/
structure GapReport where
  block_count : Nat
  min_height : Nat
  max_height : Nat
  expected : Int
  missing : Int
  gaps : List (Nat × Nat)
deriving DecidableEq

/-- Report stage (source lines 247-280): with zero blocks found the scan
reports no blocks and performs no gap computation (none); otherwise
expected = max - min + 1, missing = expected - block_count, and the gaps
come from the sorted height list. min_height is only read in the some
branch, where at least one block was accepted. -/
def makeReport (s : ScanState) : Option GapReport :=
  if s.block_count = 0 then none
  else
    some
      { block_count := s.block_count,
        min_height := s.min_height.getD 0,
        max_height := s.max_height,
        expected := (s.max_height : Int) - (s.min_height.getD 0 : Nat) + 1,
        missing := ((s.max_height : Int) - (s.min_height.getD 0 : Nat) + 1) - s.block_count,
        gaps := find_gaps (sortedHeights s.block_heights) }

/-- Last element of a nonempty list given head and tail. -/
def lastOf (a : Nat) : List Nat → Nat
  | [] => a
  | b :: t => lastOf b t

/-- Modelled from the spec: the varint encoder is not part of the repository
(the tool only decodes), so the standard base-128 encoding described in the
spec is used: emit 7 low bits per byte, set the top bit on every byte except
the last. The first argument is fuel bounding the recursion depth; the
value itself always suffices. -/
def encodeAux : Nat → Nat → List Nat
  | 0, v => [v % 128]
  | fuel + 1, v => if v < 128 then [v] else (v % 128 + 128) :: encodeAux fuel (v / 128)

/-- Modelled from the spec: base-128 varint encoding of v. -/
def encode_uvarint (v : Nat) : List Nat :=
  encodeAux v v

/-
Concrete inputs used by the closed theorems and witnesses below.

payloadFor h is a 24-byte block payload: header bytes [2, 0, 2]
(operation type 2, not reverted, encoder type 2), padding whose first
8-byte window decodes above the plausibility bound, the height h in the
window 16 bytes from the end, and zeros in the last 8 bytes.
-/

/-- Block-kind payload of 24 bytes carrying height h (h < 256) in the
window 16 bytes from the payload end. -/
def payloadFor (h : Nat) : List Nat :=
  [2, 0, 2, 0, 0, 0, 0, 255] ++ [h, 0, 0, 0, 0, 0, 0, 0] ++ [0, 0, 0, 0, 0, 0, 0, 0]

/-- Data-log record for height h: varint length 24 followed by the payload. -/
def recFor (h : Nat) : List Nat := 24 :: payloadFor h

/-- 8-byte little-endian index entry for offset n (n < 65536). -/
def le8off (n : Nat) : List Nat := [n % 256, n / 256, 0, 0, 0, 0, 0, 0]

/-- Data log with five block records of heights 10, 11, 13, 14, 17. -/
def data5 : List Nat :=
  recFor 10 ++ recFor 11 ++ recFor 13 ++ recFor 14 ++ recFor 17

/-- Index for data5: record offsets 0, 25, 50, 75, 100. -/
def idx5 : List Nat :=
  le8off 0 ++ le8off 25 ++ le8off 50 ++ le8off 75 ++ le8off 100

/-- Block-kind payload whose ONLY plausible candidate sits in the last 8
bytes (value 5): the window 16 bytes from the end holds 0 (rejected) and
the window 24 bytes from the end decodes far above the bound. -/
def c1payload : List Nat :=
  [2, 0, 2, 0, 0, 0, 0, 255] ++ [0, 0, 0, 0, 0, 0, 0, 0] ++ [5, 0, 0, 0, 0, 0, 0, 0]

/-- Data log in which height 10 recurs: records for 10, 10, 12. -/
def dataDup : List Nat := recFor 10 ++ recFor 10 ++ recFor 12

/-- Index for dataDup: offsets 0, 25, 50. -/
def idxDup : List Nat := le8off 0 ++ le8off 25 ++ le8off 50

/-- data5 with a truncated record injected at ordinal 2: the byte 200 at
offset 50 starts a varint that decodes to length 3144, far beyond the 74
bytes that remain, so the payload read falls short. -/
def data6 : List Nat :=
  recFor 10 ++ recFor 11 ++ [200] ++ recFor 13 ++ recFor 14 ++ recFor 17

/-- Index for data6: offsets 0, 25, 50 (the truncated record), 51, 76, 101. -/
def idx6 : List Nat :=
  le8off 0 ++ le8off 25 ++ le8off 50 ++ le8off 51 ++ le8off 76 ++ le8off 101

/-- Per-record recoverable failure at ordinal i, following the taxonomy of
the scan loop: short index read, length varint hitting end of stream,
length above the 10 MiB ceiling, short payload read, or a payload whose
header does not decode (parse yields (none, none)). -/
def perRecordFailure (indexBytes dataBytes : List Nat) (i : Nat) : Bool :=
  let index_bytes := (indexBytes.drop (i * 8)).take 8
  if index_bytes.length ≠ 8 then true
  else
    let db_index := leBytesToNat index_bytes
    match read_uvarint (dataBytes.drop db_index) with
    | none => true
    | some (entry_length, consumed) =>
      if entry_length > 10 * 1024 * 1024 then true
      else
        let entry_bytes := ((dataBytes.drop db_index).drop consumed).take entry_length
        if entry_bytes.length ≠ entry_length then true
        else decide (parse_state_change_entry entry_bytes = (none, none))

/-- C1: the claim says the trailing window 8 bytes from the payload end is
interpreted as a little-endian u64 and accepted when plausible, so on
c1payload (whose last 8 bytes decode to 5, with 0 < 5 < 100000000, and
whose other windows are implausible) the extracted height should be 5. The
code instead extracts nothing: the slice entry_bytes[-8:-8+8] has stop
index 0, so it is empty, struct.unpack raises, and the bare except
swallows the error — the last-8-bytes window can never succeed. The claim
matches the comment stating the height is stored as an 8-byte uint64 near
the end, so this is a slip in the slice arithmetic, not spec error. -/
theorem C1_last_window_dead :
    leBytesToNat (c1payload.drop 16) = 5 ∧
    (0 < 5 ∧ 5 < 100000000) ∧
    c1payload.length = 24 ∧
    pySlice c1payload (-8) 0 = [] ∧
    parse_state_change_entry c1payload = (some 2, none) := by
  decide

set_option maxHeartbeats 1600000 in
/-- C2: scanning a log whose block records carry heights 10, 11, 13, 14, 17
reports min 10, max 17, expected 8, missing 3 and gaps [(12, 12), (15, 16)],
the gaps coming from find_gaps over the ascending sorted heights. -/
theorem C2_gap_example :
    makeReport (scanBytes idx5 data5) =
      some { block_count := 5, min_height := 10, max_height := 17,
             expected := 8, missing := 3, gaps := [(12, 12), (15, 16)] } ∧
    find_gaps (scanHeights idx5 data5) = [(12, 12), (15, 16)] := by
  decide

set_option maxHeartbeats 1600000 in
/-- C3 counterexample: in the scan of a log observing heights 10, 10, 12
the height map has 2 distinct heights, yet the report has expected 3 and
missing 0, not expected - distinct = 3 - 2 = 1: block_count counts every
accepted observation, so the recurring height 10 is counted twice. -/
theorem C3_counterexample :
    (scanBytes idxDup dataDup).block_heights = [(10, 1), (12, 2)] ∧
    makeReport (scanBytes idxDup dataDup) =
      some { block_count := 3, min_height := 10, max_height := 12,
             expected := 3, missing := 0, gaps := [(11, 11)] } ∧
    (0 : Int) ≠ 3 - 2 := by
  decide

set_option maxHeartbeats 1600000 in
/-- C4 counterexample: injecting a single truncated record (ordinal 2 of
idx6/data6, declared length 3144 with only 74 bytes left) leaves the error
counter at 0 — identical to the clean scan of idx5/data5 — rather than
increasing it by exactly one; both scans produce the very same report. -/
theorem C4_counterexample :
    (scanBytes idx6 data6).parse_errors = 0 ∧
    (scanBytes idx5 data5).parse_errors = 0 ∧
    makeReport (scanBytes idx6 data6) =
      some { block_count := 5, min_height := 10, max_height := 17,
             expected := 8, missing := 3, gaps := [(12, 12), (15, 16)] } ∧
    makeReport (scanBytes idx5 data5) =
      some { block_count := 5, min_height := 10, max_height := 17,
             expected := 8, missing := 3, gaps := [(12, 12), (15, 16)] } := by
  decide

/-- C5 counterexample: on the source [128], which is exhausted before any
byte with the top bit clear, read_uvarint_from_bytes returns (0, 1) — the
very same output as on the well-formed encoding [0] of the value 0 — so the
in-memory slice decoder signals no sentinel or failure on truncation. -/
theorem C5_counterexample :
    read_uvarint_from_bytes [128] 0 = (0, 1) ∧
    read_uvarint_from_bytes [0] 0 = (0, 1) ∧
    read_uvarint_from_bytes [128] 0 = read_uvarint_from_bytes [0] 0 := by
  decide

/-- Bitwise or of disjoint parts is addition: a value below 2 to the n ored
with anything shifted left by n. This is the algebra behind the varint
accumulator result with the shift always ahead of the accumulated bits. -/
lemma lor_shiftLeft_eq_add {r x n : Nat} (h : r < 2 ^ n) :
    r ||| (x <<< n) = r + x * 2 ^ n := by
  apply Nat.eq_of_testBit_eq
  intro i
  rw [Nat.testBit_or, Nat.testBit_shiftLeft]
  rcases lt_or_ge i n with hi | hi
  · have hni : ¬ n ≤ i := by omega
    simp only [hni, decide_False, Bool.false_and, Bool.or_false]
    rw [Nat.testBit_to_div_mod, Nat.testBit_to_div_mod]
    have hsplit : r + x * 2 ^ n = r + x * 2 ^ (n - i - 1) * 2 * 2 ^ i := by
      have hpow : (2 : Nat) ^ (n - i - 1) * 2 * 2 ^ i = 2 ^ n := by
        rw [mul_assoc, ← pow_succ']
        rw [← pow_add]
        congr 1
        omega
      calc r + x * 2 ^ n = r + x * (2 ^ (n - i - 1) * 2 * 2 ^ i) := by rw [hpow]
        _ = r + x * 2 ^ (n - i - 1) * 2 * 2 ^ i := by ring
    rw [hsplit, Nat.add_mul_div_right _ _ (Nat.two_pow_pos i),
      Nat.add_mul_mod_self_right]
  · have hni : n ≤ i := hi
    simp only [hni, decide_True, Bool.true_and]
    have hr : r.testBit i = false :=
      Nat.testBit_lt_two_pow (lt_of_lt_of_le h (Nat.pow_le_pow_right (by norm_num) hni))
    rw [hr]
    simp only [Bool.false_or]
    rw [Nat.testBit_to_div_mod, Nat.testBit_to_div_mod]
    have hdiv : (r + x * 2 ^ n) / 2 ^ i = x / 2 ^ (i - n) := by
      have h2 : (2 : Nat) ^ i = 2 ^ n * 2 ^ (i - n) := by
        rw [← pow_add]
        congr 1
        omega
      rw [h2, ← Nat.div_div_eq_div_mul, Nat.add_mul_div_right _ _ (Nat.two_pow_pos n),
        Nat.div_eq_of_lt h, Nat.zero_add]
    rw [hdiv]

/-- Low seven bits of a byte below 128 are the byte itself. -/
lemma and_127_of_lt {v : Nat} (h : v < 128) : v &&& 127 = v := by
  have h7 : (127 : Nat) = 2 ^ 7 - 1 := by norm_num
  rw [h7, Nat.and_pow_two_sub_one_eq_mod]
  omega

/-- Continuation bit of a byte below 128 is clear. -/
lemma and_128_of_lt {v : Nat} (h : v < 128) : v &&& 128 = 0 := by
  have h7 : (128 : Nat) = 2 ^ 7 := by norm_num
  rw [h7, Nat.and_two_pow]
  have : v.testBit 7 = false := Nat.testBit_lt_two_pow (by norm_num at h7 ⊢; omega)
  simp [this]

/-- Low seven bits of a continuation byte are the payload bits. -/
lemma byte_and_127 (v : Nat) : (v % 128 + 128) &&& 127 = v % 128 := by
  have h7 : (127 : Nat) = 2 ^ 7 - 1 := by norm_num
  rw [h7, Nat.and_pow_two_sub_one_eq_mod]
  omega

/-- Continuation bit of a continuation byte is set. -/
lemma byte_and_128 (v : Nat) : (v % 128 + 128) &&& 128 ≠ 0 := by
  have h7 : (128 : Nat) = 2 ^ 7 := by norm_num
  rw [h7, Nat.and_two_pow]
  have ht : (v % 128 + 128).testBit 7 = true := by
    rw [Nat.testBit_to_div_mod]
    have : (v % 128 + 128) / 2 ^ 7 = 1 := by omega
    simp [this]
  simp [ht]

/-- On a source whose bytes all carry the continuation bit, the streaming
decoder reaches the end of the stream and fails, while the in-memory loop
consumes every remaining byte and stops. -/
lemma ruv_go_all_high {bs : List Nat} (h : ∀ b ∈ bs, b &&& 128 ≠ 0) :
    ∀ r s, read_uvarint_go bs r s = none ∧ (ruv_go bs r s).2 = bs.length := by
  induction bs with
  | nil => intro r s; exact ⟨rfl, rfl⟩
  | cons b rest ih =>
    intro r s
    have hb : ¬ (b &&& 128 = 0) := h b (by simp)
    have hrest : ∀ x ∈ rest, x &&& 128 ≠ 0 := fun x hx => h x (by simp [hx])
    constructor
    · simp only [read_uvarint_go, if_neg hb, (ih hrest _ _).1]
    · simp only [ruv_go, if_neg hb, (ih hrest _ _).2, List.length_cons]

/-- Decoding the base-128 encoding of v from any accumulator state below
the current shift window adds v shifted into the window, consuming the
whole encoding. -/
lemma ruv_go_encodeAux (fuel : Nat) :
    ∀ v r s, v ≤ fuel → r < 2 ^ s →
      ruv_go (encodeAux fuel v) r s = (r + v * 2 ^ s, (encodeAux fuel v).length) := by
  induction fuel with
  | zero =>
    intro v r s hv hr
    have hv0 : v = 0 := by omega
    subst hv0
    simp only [encodeAux, ruv_go, Nat.zero_mod]
    rw [if_pos (and_128_of_lt (by norm_num)), and_127_of_lt (by norm_num)]
    simp [lor_shiftLeft_eq_add hr]
  | succ fuel ih =>
    intro v r s hv hr
    by_cases hsmall : v < 128
    · simp only [encodeAux, if_pos hsmall, ruv_go]
      rw [if_pos (and_128_of_lt hsmall), and_127_of_lt hsmall]
      simp [lor_shiftLeft_eq_add hr]
    · simp only [encodeAux, if_neg hsmall, ruv_go]
      rw [if_neg (byte_and_128 v), byte_and_127]
      have hr2 : r ||| (v % 128) <<< s = r + v % 128 * 2 ^ s := lor_shiftLeft_eq_add hr
      have hlt : r + v % 128 * 2 ^ s < 2 ^ (s + 7) := by
        have hmod : v % 128 ≤ 127 := by omega
        have h1 : v % 128 * 2 ^ s ≤ 127 * 2 ^ s := Nat.mul_le_mul_right _ hmod
        have hpow : (2 : Nat) ^ (s + 7) = 128 * 2 ^ s := by rw [pow_add]; ring
        omega
      have hfuel : v / 128 ≤ fuel := by
        have : v / 128 < v := Nat.div_lt_self (by omega) (by norm_num)
        omega
      rw [hr2]
      rw [ih (v / 128) _ _ hfuel hlt]
      simp only [Prod.mk.injEq]
      refine ⟨?_, ?_⟩
      · have hv128 : 128 * (v / 128) + v % 128 = v := Nat.div_add_mod v 128
        calc r + v % 128 * 2 ^ s + v / 128 * 2 ^ (s + 7)
            = r + (128 * (v / 128) + v % 128) * 2 ^ s := by rw [pow_add]; ring
          _ = r + v * 2 ^ s := by rw [hv128]
      · simp

/-- Unfolding lemma: lastOf walks to the last element. -/
lemma lastOf_cons (a b : Nat) (t : List Nat) : lastOf a (b :: t) = lastOf b t := rfl

/-- getLast? of a nonempty list is lastOf of its head and tail. -/
lemma getLast?_eq_lastOf (a : Nat) (t : List Nat) :
    (a :: t).getLast? = some (lastOf a t) := by
  induction t generalizing a with
  | nil => rfl
  | cons b t ih => rw [List.getLast?_cons_cons, ih, lastOf_cons]

/-- Every member of a strictly ascending list lies between its head and its
last element. -/
lemma chain_le_lastOf {a : Nat} {t : List Nat} (h : List.Chain' (· < ·) (a :: t)) :
    ∀ x ∈ a :: t, a ≤ x ∧ x ≤ lastOf a t := by
  induction t generalizing a with
  | nil =>
    intro x hx
    simp only [List.mem_singleton] at hx
    subst hx
    exact ⟨le_refl _, le_refl _⟩
  | cons b t ih =>
    intro x hx
    rw [List.chain'_cons] at h
    obtain ⟨hab, hbt⟩ := h
    rw [lastOf_cons]
    have hbl : b ≤ lastOf b t := (ih hbt b (by simp)).2
    rcases List.mem_cons.mp hx with rfl | hx2
    · exact ⟨le_refl _, by omega⟩
    · have h2 := ih hbt x hx2
      exact ⟨by omega, h2.2⟩

/-- Gaps of a strictly ascending list lie strictly inside the span: the
start exceeds the head, start is at most end, and the end is below the last
element. -/
lemma find_gaps_bounds {a : Nat} {t : List Nat} (h : List.Chain' (· < ·) (a :: t)) :
    ∀ p ∈ find_gaps (a :: t), a < p.1 ∧ p.1 ≤ p.2 ∧ p.2 < lastOf a t := by
  induction t generalizing a with
  | nil => intro p hp; simp [find_gaps] at hp
  | cons b t ih =>
    intro p hp
    rw [List.chain'_cons] at h
    obtain ⟨hab, hbt⟩ := h
    rw [lastOf_cons]
    have hbl : b ≤ lastOf b t := (chain_le_lastOf hbt b (by simp)).2
    rw [find_gaps] at hp
    rcases List.mem_append.mp hp with hp1 | hp2
    · by_cases hne : b ≠ a + 1
      · rw [if_pos hne] at hp1
        simp only [List.mem_singleton] at hp1
        subst hp1
        refine ⟨by omega, by omega, by omega⟩
      · rw [if_neg hne] at hp1
        simp at hp1
    · have h2 := ih hbt p hp2
      exact ⟨by omega, h2.2.1, by omega⟩

/-- Gaps of a strictly ascending list are pairwise separated: each gap ends
strictly more than one below the start of every later gap. -/
lemma find_gaps_pairwise {hs : List Nat} (h : List.Chain' (· < ·) hs) :
    List.Pairwise (fun p q : Nat × Nat => p.2 + 1 < q.1) (find_gaps hs) := by
  induction hs with
  | nil => simp [find_gaps]
  | cons a t ih =>
    cases t with
    | nil => simp [find_gaps]
    | cons b t2 =>
      rw [List.chain'_cons] at h
      obtain ⟨hab, hbt⟩ := h
      rw [find_gaps]
      rw [List.pairwise_append]
      refine ⟨?_, ih hbt, ?_⟩
      · by_cases hne : b ≠ a + 1
        · rw [if_pos hne]; simp
        · rw [if_neg hne]; simp
      · intro x hx y hy
        have hyb := find_gaps_bounds hbt y hy
        by_cases hne : b ≠ a + 1
        · rw [if_pos hne] at hx
          simp only [List.mem_singleton] at hx
          subst hx
          simp only
          omega
        · rw [if_neg hne] at hx
          simp at hx

/-- Coverage: over a strictly ascending list, the numbers between head and
last are exactly the members of the list together with the numbers inside
some gap. -/
lemma find_gaps_cover {a : Nat} {t : List Nat} (h : List.Chain' (· < ·) (a :: t)) :
    ∀ x, (a ≤ x ∧ x ≤ lastOf a t) ↔
      (x ∈ a :: t ∨ ∃ p ∈ find_gaps (a :: t), p.1 ≤ x ∧ x ≤ p.2) := by
  induction t generalizing a with
  | nil =>
    intro x
    simp only [find_gaps, lastOf, List.mem_singleton, List.not_mem_nil, exists_false,
      or_false, List.mem_nil_iff]
    constructor
    · rintro ⟨h1, h2⟩
      left
      omega
    · rintro (rfl | ⟨p, hp, _⟩)
      · exact ⟨le_refl _, le_refl _⟩
      · simp at hp
  | cons b t ih =>
    intro x
    rw [List.chain'_cons] at h
    obtain ⟨hab, hbt⟩ := h
    have hbl : b ≤ lastOf b t := (chain_le_lastOf hbt b (by simp)).2
    rw [lastOf_cons]
    constructor
    · rintro ⟨hax, hxl⟩
      by_cases hxb : b ≤ x
      · rcases (ih hbt x).mp ⟨hxb, hxl⟩ with hmem | ⟨p, hp, hpx⟩
        · left
          exact List.mem_cons_of_mem a hmem
        · right
          refine ⟨p, ?_, hpx⟩
          rw [find_gaps]
          exact List.mem_append_right _ hp
      · push_neg at hxb
        by_cases hxa : x = a
        · left
          simp [hxa]
        · have hne : b ≠ a + 1 := by omega
          right
          refine ⟨(a + 1, b - 1), ?_, by omega, by omega⟩
          rw [find_gaps]
          apply List.mem_append_left
          rw [if_pos hne]
          simp
    · rintro (hmem | ⟨p, hp, hp1, hp2⟩)
      · rcases List.mem_cons.mp hmem with rfl | hmem2
        · exact ⟨le_refl _, by omega⟩
        · have h2 := chain_le_lastOf hbt x hmem2
          exact ⟨by omega, h2.2⟩
      · rw [find_gaps] at hp
        rcases List.mem_append.mp hp with hph | hpt
        · by_cases hne : b ≠ a + 1
          · rw [if_pos hne] at hph
            simp only [List.mem_singleton] at hph
            subst hph
            simp only at hp1 hp2
            omega
          · rw [if_neg hne] at hph
            simp at hph
        · have hb := find_gaps_bounds hbt p hpt
          exact ⟨by omega, by omega⟩

/-- Keys of the map after an insert: unchanged when the key is present,
extended by the key otherwise. -/
lemma mapInsert_keys (m : List (Nat × Nat)) (k v : Nat) :
    (mapInsert m k v).map Prod.fst =
      if ∃ q ∈ m, q.1 = k then m.map Prod.fst else m.map Prod.fst ++ [k] := by
  unfold mapInsert
  split
  · rw [List.map_map]
    apply List.map_congr_left
    intro p hp
    by_cases hpk : p.1 = k
    · simp [hpk]
    · simp [hpk]
  · simp

/-- Inserting preserves distinctness of the keys. -/
lemma mapInsert_keys_nodup {m : List (Nat × Nat)} (k v : Nat)
    (h : (m.map Prod.fst).Nodup) : ((mapInsert m k v).map Prod.fst).Nodup := by
  rw [mapInsert_keys]
  split
  · exact h
  · rename_i hnex
    rw [List.nodup_append]
    refine ⟨h, List.nodup_singleton _, ?_⟩
    intro x hx hxk
    simp only [List.mem_singleton] at hxk
    subst hxk
    obtain ⟨q, hq, hqk⟩ := List.mem_map.mp hx
    exact hnex ⟨q, hq, hqk⟩

/-- Every entry of the map after an insert keys either the inserted key or
a key that was already present. -/
lemma mapInsert_mem {m : List (Nat × Nat)} {k v : Nat} {p : Nat × Nat}
    (hp : p ∈ mapInsert m k v) : p.1 = k ∨ ∃ q ∈ m, p.1 = q.1 := by
  unfold mapInsert at hp
  split at hp
  · obtain ⟨q, hq, hqp⟩ := List.mem_map.mp hp
    by_cases hqk : q.1 = k
    · rw [if_pos hqk] at hqp
      left
      rw [← hqp]
    · rw [if_neg hqk] at hqp
      right
      exact ⟨q, hq, by rw [← hqp]⟩
  · rcases List.mem_append.mp hp with hin | hone
    · right
      exact ⟨p, hin, rfl⟩
    · simp only [List.mem_singleton] at hone
      subst hone
      left
      rfl

/-- Inserting a fresh key appends the binding. -/
lemma mapInsert_fresh {m : List (Nat × Nat)} {k : Nat} (v : Nat)
    (h : ¬ ∃ q ∈ m, q.1 = k) : mapInsert m k v = m ++ [(k, v)] := by
  unfold mapInsert
  rw [if_neg h]

/-- Skipping arm of observeStep: with nothing parsed the state is untouched. -/
lemma observeStep_none (s : ScanState) (i : Nat) : observeStep s i none none = s := rfl

/-- Case split for observeStep looking only at the height map and counter:
either both are untouched, or a height within the plausibility bound is
inserted and the counter bumped. -/
lemma observeStep_heights_shape (s : ScanState) (i : Nat) (et bh : Option Nat) :
    ((observeStep s i et bh).block_heights = s.block_heights ∧
      (observeStep s i et bh).block_count = s.block_count) ∨
    ∃ k, 0 < k ∧ k < 100000000 ∧
      (observeStep s i et bh).block_heights = mapInsert s.block_heights k i ∧
      (observeStep s i et bh).block_count = s.block_count + 1 := by
  unfold observeStep
  rcases bh with _ | bhv
  · left
    rcases et with _ | etv <;> simp
  · rcases et with _ | etv
    · left; simp
    · dsimp only
      by_cases h2 : (some etv : Option Nat) = some 2
      · rw [if_pos h2]
        by_cases hb : 0 < bhv ∧ bhv < 100000000
        · rw [if_pos hb]
          right
          exact ⟨bhv, hb.1, hb.2, by simp, by simp⟩
        · rw [if_neg hb]
          left
          simp
      · rw [if_neg h2]
        left
        simp

/-- Case split for a scan-loop iteration: either a per-record failure skips
the ordinal and the state is returned unchanged, or the payload is parsed
and folded in through observeStep. -/
lemma scanStep_cases (idxB dataB : List Nat) (i : Nat) (s : ScanState) :
    scanStep idxB dataB i s = s ∨
    ∃ e : List Nat,
      scanStep idxB dataB i s =
        observeStep s i (parse_state_change_entry e).1 (parse_state_change_entry e).2 := by
  unfold scanStep
  dsimp only
  split
  · left; rfl
  · split
    · left; rfl
    · rename_i el hel
      split
      · left; rfl
      · split
        · left; rfl
        · right; exact ⟨_, rfl⟩

/-- Height-map shape of one scan-loop iteration. -/
lemma scanStep_heights_shape (idxB dataB : List Nat) (i : Nat) (s : ScanState) :
    ((scanStep idxB dataB i s).block_heights = s.block_heights ∧
      (scanStep idxB dataB i s).block_count = s.block_count) ∨
    ∃ k, 0 < k ∧ k < 100000000 ∧
      (scanStep idxB dataB i s).block_heights = mapInsert s.block_heights k i ∧
      (scanStep idxB dataB i s).block_count = s.block_count + 1 := by
  rcases scanStep_cases idxB dataB i s with h | ⟨e, h⟩
  · rw [h]
    left
    exact ⟨rfl, rfl⟩
  · rw [h]
    exact observeStep_heights_shape s i _ _

/-- Invariance of a predicate under a left fold whose step preserves it. -/
lemma foldl_inv {σ α : Type} {P : σ → Prop} (step : σ → α → σ)
    (hstep : ∀ s x, P s → P (step s x)) :
    ∀ (l : List α) (s : σ), P s → P (l.foldl step s) := by
  intro l
  induction l with
  | nil => intro s hs; exact hs
  | cons x t ih => intro s hs; exact ih _ (hstep s x hs)

/-- Keys of the height map built by a scan are distinct. -/
lemma scanBytes_keys_nodup (indexBytes dataBytes : List Nat) :
    (((scanBytes indexBytes dataBytes).block_heights).map Prod.fst).Nodup := by
  unfold scanBytes
  apply foldl_inv (P := fun s : ScanState => ((s.block_heights.map Prod.fst)).Nodup)
  · intro s i hs
    rcases scanStep_heights_shape indexBytes dataBytes i s with ⟨heq, _⟩ | ⟨k, _, _, heq, _⟩
    · rw [heq]; exact hs
    · rw [heq]; exact mapInsert_keys_nodup k i hs
  · simp [initState]

/-- Every height recorded by a scan passed the plausibility bound. -/
lemma scanBytes_heights_bounded (indexBytes dataBytes : List Nat) :
    ∀ p ∈ (scanBytes indexBytes dataBytes).block_heights,
      0 < p.1 ∧ p.1 < 100000000 := by
  unfold scanBytes
  apply foldl_inv
    (P := fun s : ScanState => ∀ p ∈ s.block_heights, 0 < p.1 ∧ p.1 < 100000000)
  · intro s i hs p hp
    rcases scanStep_heights_shape indexBytes dataBytes i s with ⟨heq, _⟩ | ⟨k, hk0, hk1, heq, _⟩
    · rw [heq] at hp; exact hs p hp
    · rw [heq] at hp
      rcases mapInsert_mem hp with hpk | ⟨q, hq, hpq⟩
      · rw [hpk]; exact ⟨hk0, hk1⟩
      · rw [hpq]; exact hs q hq
  · simp [initState]

/-- Candidate values returned by the window loop always satisfy the bound. -/
lemma tryWindows_bound {e : List Nat} :
    ∀ offs c, tryWindows e offs = some c → 0 < c ∧ c < 100000000 := by
  intro offs
  induction offs with
  | nil => intro c hc; simp [tryWindows] at hc
  | cons o rest ih =>
    intro c hc
    rw [tryWindows] at hc
    split at hc
    · split at hc
      · split at hc
        · rename_i hcond
          simp only [Option.some.injEq] at hc
          subst hc
          exact hcond
        · exact ih c hc
      · exact ih c hc
    · exact ih c hc

/-- Accepting arm of observeStep: a block record with an in-bound height
inserts the height and bumps the counter. -/
lemma observeStep_accept (s : ScanState) (i h : Nat) (hh : 0 < h ∧ h < 100000000) :
    (observeStep s i (some 2) (some h)).block_heights = mapInsert s.block_heights h i ∧
    (observeStep s i (some 2) (some h)).block_count = s.block_count + 1 := by
  unfold observeStep
  dsimp only
  rw [if_pos rfl, if_pos hh]
  exact ⟨rfl, rfl⟩

/-- Counting lemma for the analyzer feed: over in-bound observations with
pairwise distinct heights that are fresh for the starting state, the block
counter grows by the number of observations and so does the height map. -/
lemma processObservations_counts (obs : List (Nat × Nat)) :
    ∀ s : ScanState,
      (∀ p ∈ obs, 0 < p.1 ∧ p.1 < 100000000) →
      ((obs.map Prod.fst).Nodup) →
      (∀ p ∈ obs, ¬ ∃ q ∈ s.block_heights, q.1 = p.1) →
      (obs.foldl (fun s p => observeStep s p.2 (some 2) (some p.1)) s).block_count
          = s.block_count + obs.length ∧
      (obs.foldl (fun s p => observeStep s p.2 (some 2) (some p.1)) s).block_heights.length
          = s.block_heights.length + obs.length := by
  induction obs with
  | nil =>
    intro s _ _ _
    simp
  | cons p t ih =>
    intro s hrange hnodup hdisj
    simp only [List.foldl_cons]
    have hp := hrange p (by simp)
    have hfresh : ¬ ∃ q ∈ s.block_heights, q.1 = p.1 := hdisj p (by simp)
    have hacc := observeStep_accept s p.2 p.1 hp
    have hbh : (observeStep s p.2 (some 2) (some p.1)).block_heights
        = s.block_heights ++ [(p.1, p.2)] := by
      rw [hacc.1, mapInsert_fresh p.2 hfresh]
    have hnodup2 : (t.map Prod.fst).Nodup := (List.nodup_cons.mp hnodup).2
    have hnotmem : p.1 ∉ t.map Prod.fst := (List.nodup_cons.mp hnodup).1
    have hdisj2 : ∀ x ∈ t, ¬ ∃ q ∈ (observeStep s p.2 (some 2) (some p.1)).block_heights,
        q.1 = x.1 := by
      intro x hx ⟨q, hq, hqx⟩
      rw [hbh] at hq
      rcases List.mem_append.mp hq with hq1 | hq2
      · exact hdisj x (List.mem_cons_of_mem p hx) ⟨q, hq1, hqx⟩
      · simp only [List.mem_singleton] at hq2
        subst hq2
        apply hnotmem
        simp only at hqx
        rw [hqx]
        exact List.mem_map.mpr ⟨x, hx, rfl⟩
    have ht := ih (observeStep s p.2 (some 2) (some p.1))
      (fun x hx => hrange x (List.mem_cons_of_mem p hx)) hnodup2 hdisj2
    constructor
    · rw [ht.1, hacc.2, List.length_cons]
      omega
    · rw [ht.2, hbh, List.length_append, List.length_cons]
      simp
      omega

/-- C3 amended: missing_count equals expected_count minus block_count,
where block_count counts every accepted observation, a recurring height
once per occurrence; when no height recurs (the map keys are exactly the
observations), block_count coincides with the number of distinct heights
in the map and the original equation missing = expected - distinct holds.
Stated over the analyzer feed of accepted in-bound observations. -/
theorem C3_amended_missing_count (obs : List (Nat × Nat)) (r : GapReport)
    (hrange : ∀ p ∈ obs, 0 < p.1 ∧ p.1 < 100000000)
    (hnodup : (obs.map Prod.fst).Nodup)
    (hr : makeReport (processObservations obs) = some r) :
    r.missing = r.expected - ((processObservations obs).block_heights.length : Int) ∧
    (processObservations obs).block_count = (processObservations obs).block_heights.length := by
  have h := processObservations_counts obs initState hrange hnodup (by simp [initState])
  have hcount : (processObservations obs).block_count
      = (processObservations obs).block_heights.length := by
    unfold processObservations
    rw [h.1, h.2]
    simp [initState]
  refine ⟨?_, hcount⟩
  unfold makeReport at hr
  split at hr
  · exact absurd hr (by simp)
  · simp only [Option.some.injEq] at hr
    subst hr
    dsimp only
    rw [hcount]

/-- Witness for C3 amended at the observations (10, 0), (12, 1): the report
is block_count 2, span 10..12, expected 3, missing 1 = 3 - 2. -/
theorem C3_amended_missing_count_witness :
    (GapReport.mk 2 10 12 3 1 [(11, 11)]).missing =
      (GapReport.mk 2 10 12 3 1 [(11, 11)]).expected -
        ((processObservations [(10, 0), (12, 1)]).block_heights.length : Int) ∧
    (processObservations [(10, 0), (12, 1)]).block_count =
      (processObservations [(10, 0), (12, 1)]).block_heights.length :=
  C3_amended_missing_count [(10, 0), (12, 1)] (GapReport.mk 2 10 12 3 1 [(11, 11)])
    (by decide) (by decide) (by decide)

/-- C4 amended: each per-record recoverable failure (short index read,
length varint hitting end of stream, oversize length, short payload,
undecodable header) leaves the ENTIRE scan state unchanged: the ordinal is
skipped and the scan continues, but the error counter is not incremented
(parse_errors counts only unexpected exceptions, and none of these paths
raises); hence injecting a single truncated record leaves the error
counter and every other ordinal contribution unchanged. -/
theorem C4_amended_skip_uncounted (indexBytes dataBytes : List Nat) (i : Nat) (s : ScanState)
    (hfail : perRecordFailure indexBytes dataBytes i = true) :
    scanStep indexBytes dataBytes i s = s := by
  unfold perRecordFailure at hfail
  unfold scanStep
  dsimp only at hfail ⊢
  split
  · rfl
  · rename_i hlen
    rw [if_neg hlen] at hfail
    split
    · rfl
    · rename_i vc heq
      rw [heq] at hfail
      dsimp only at hfail
      split
      · rfl
      · rename_i hbig
        rw [if_neg hbig] at hfail
        split
        · rfl
        · rename_i hshort
          rw [if_neg hshort] at hfail
          have hparse := of_decide_eq_true hfail
          rw [hparse]
          rfl

/-- Witness for C4 amended: the truncated record at ordinal 2 of
idx6/data6 is skipped with the state untouched. -/
theorem C4_amended_skip_uncounted_witness :
    scanStep idx6 data6 2 initState = initState :=
  C4_amended_skip_uncounted idx6 data6 2 initState (by decide)

/-- C5 amended: when the source is exhausted before a byte with the top
bit clear appears, the streaming reader read_uvarint returns the sentinel
none, while the in-memory decoder read_uvarint_from_bytes instead consumes
the slice to its end and returns the partially accumulated value with the
final position, signalling no failure. -/
theorem C5_amended_truncation (data : List Nat) (offset : Nat)
    (hhigh : ∀ b ∈ data.drop offset, b &&& 128 ≠ 0) (hoff : offset ≤ data.length) :
    read_uvarint (data.drop offset) = none ∧
    (read_uvarint_from_bytes data offset).2 = data.length := by
  refine ⟨(ruv_go_all_high hhigh 0 0).1, ?_⟩
  show offset + (ruv_go (data.drop offset) 0 0).2 = data.length
  rw [(ruv_go_all_high hhigh 0 0).2, List.length_drop]
  omega

/-- Witness for C5 amended on the one-byte source 128. -/
theorem C5_amended_truncation_witness :
    read_uvarint (List.drop 0 [128]) = none ∧
    (read_uvarint_from_bytes [128] 0).2 = List.length [128] :=
  C5_amended_truncation [128] 0 (by decide) (by decide)

/-- C6: for every finalized scan with a nonempty observed-height list, the
gap list over the sorted heights satisfies start at most end for every gap,
pairwise separation (end + 1 below the next start, hence non-overlapping
and non-adjacent), ascending starts, and the numbers of the closed span
from the minimal to the maximal observed height are exactly the observed
heights together with the members of the gaps. -/
theorem C6_gap_invariants (indexBytes dataBytes : List Nat) (mn mx : Nat)
    (hmn : (scanHeights indexBytes dataBytes).head? = some mn)
    (hmx : (scanHeights indexBytes dataBytes).getLast? = some mx) :
    (∀ p ∈ find_gaps (scanHeights indexBytes dataBytes), p.1 ≤ p.2) ∧
    List.Pairwise (fun p q : Nat × Nat => p.2 + 1 < q.1)
      (find_gaps (scanHeights indexBytes dataBytes)) ∧
    List.Pairwise (fun p q : Nat × Nat => p.1 < q.1)
      (find_gaps (scanHeights indexBytes dataBytes)) ∧
    (∀ x, x ∈ scanHeights indexBytes dataBytes ↔
        x ∈ (scanBytes indexBytes dataBytes).block_heights.map Prod.fst) ∧
    (∀ x, (mn ≤ x ∧ x ≤ mx) ↔
      (x ∈ scanHeights indexBytes dataBytes ∨
        ∃ p ∈ find_gaps (scanHeights indexBytes dataBytes), p.1 ≤ x ∧ x ≤ p.2)) := by
  have hperm : List.Perm (scanHeights indexBytes dataBytes)
      ((scanBytes indexBytes dataBytes).block_heights.map Prod.fst) :=
    List.perm_insertionSort _ _
  have hnodup : (scanHeights indexBytes dataBytes).Nodup :=
    hperm.nodup_iff.mpr (scanBytes_keys_nodup _ _)
  have hsorted : List.Sorted (· ≤ ·) (scanHeights indexBytes dataBytes) :=
    List.sorted_insertionSort _ _
  have hlt : List.Pairwise (· < ·) (scanHeights indexBytes dataBytes) :=
    (List.Pairwise.and hsorted hnodup).imp (fun hab => lt_of_le_of_ne hab.1 hab.2)
  have hchain : List.Chain' (· < ·) (scanHeights indexBytes dataBytes) := hlt.chain'
  obtain ⟨a, t, hat⟩ : ∃ a t, scanHeights indexBytes dataBytes = a :: t := by
    cases hhs : scanHeights indexBytes dataBytes with
    | nil => rw [hhs] at hmn; simp at hmn
    | cons a t => exact ⟨a, t, rfl⟩
  rw [hat] at hmn hmx hchain hperm ⊢
  simp only [List.head?_cons, Option.some.injEq] at hmn
  rw [getLast?_eq_lastOf] at hmx
  simp only [Option.some.injEq] at hmx
  subst hmn
  subst hmx
  refine ⟨?_, find_gaps_pairwise hchain, ?_, ?_, ?_⟩
  · intro p hp
    exact (find_gaps_bounds hchain p hp).2.1
  · refine List.Pairwise.imp_of_mem ?_ (find_gaps_pairwise hchain)
    intro p q hpmem hqmem hpq
    have hb := (find_gaps_bounds hchain p hpmem).2.1
    omega
  · intro x
    exact hperm.mem_iff
  · intro x
    exact find_gaps_cover hchain x

/-- Witness for C6 on the scan of idx5/data5, whose sorted heights are
10, 11, 13, 14, 17 with span 10..17. -/
theorem C6_gap_invariants_witness :
    (∀ p ∈ find_gaps (scanHeights idx5 data5), p.1 ≤ p.2) ∧
    List.Pairwise (fun p q : Nat × Nat => p.2 + 1 < q.1) (find_gaps (scanHeights idx5 data5)) ∧
    List.Pairwise (fun p q : Nat × Nat => p.1 < q.1) (find_gaps (scanHeights idx5 data5)) ∧
    (∀ x, x ∈ scanHeights idx5 data5 ↔
        x ∈ (scanBytes idx5 data5).block_heights.map Prod.fst) ∧
    (∀ x, (10 ≤ x ∧ x ≤ 17) ↔
      (x ∈ scanHeights idx5 data5 ∨
        ∃ p ∈ find_gaps (scanHeights idx5 data5), p.1 ≤ x ∧ x ≤ p.2)) :=
  C6_gap_invariants idx5 data5 10 17 (by decide) (by decide)

/-- C7: decoding the base-128 varint encoding of any u64 value v yields
back exactly v together with the number of bytes of that encoding; the
decoder is read_uvarint_from_bytes of the source, the encoder the standard
base-128 encoding the spec describes (the repository only decodes). -/
theorem C7_varint_round_trip (v : Nat) (hv : v < 2 ^ 64) :
    read_uvarint_from_bytes (encode_uvarint v) 0 = (v, (encode_uvarint v).length) := by
  have h := ruv_go_encodeAux v v 0 0 (le_refl v) (by norm_num)
  simp only [read_uvarint_from_bytes, encode_uvarint, List.drop_zero]
  rw [h]
  simp

/-- Witness for C7 at v = 300, whose encoding is the two bytes 172, 2. -/
theorem C7_varint_round_trip_witness :
    read_uvarint_from_bytes (encode_uvarint 300) 0 = (300, (encode_uvarint 300).length) :=
  C7_varint_round_trip 300 (by norm_num)

/-- C8: a scan with zero accepted observations reports no blocks found and
produces no gap report at all (no gap computation is attempted); a scan
with exactly one accepted observation of height h reports min = max = h,
an empty gap list, expected 1 and missing 0. -/
theorem C8_edge_cases (h i : Nat) (hh : 0 < h ∧ h < 100000000) :
    makeReport (processObservations []) = none ∧
    makeReport (processObservations [(h, i)]) =
      some { block_count := 1, min_height := h, max_height := h,
             expected := 1, missing := 0, gaps := [] } := by
  refine ⟨rfl, ?_⟩
  have hstep : processObservations [(h, i)] = observeStep initState i (some 2) (some h) := rfl
  rw [hstep]
  have hstate : observeStep initState i (some 2) (some h) =
      { block_heights := [(h, i)], encoder_types_count := countIncr [] 2,
        max_height := h, min_height := some h, block_count := 1,
        parse_errors := 0, debug_count := 1 } := by
    unfold observeStep initState
    dsimp only
    rw [if_pos rfl, if_pos hh]
    simp [mapInsert, hh.1]
  rw [hstate]
  unfold makeReport
  dsimp only
  rw [if_neg (by omega : ¬ (1 = 0))]
  have hsort : sortedHeights [(h, i)] = [h] := rfl
  rw [hsort]
  have hgaps : find_gaps [h] = [] := rfl
  rw [hgaps]
  simp only [Option.getD_some, Option.some.injEq, GapReport.mk.injEq, eq_self_iff_true,
    true_and, and_true]
  omega

/-- Witness for C8 at the single observed height 42. -/
theorem C8_edge_cases_witness :
    makeReport (processObservations []) = none ∧
    makeReport (processObservations [(42, 0)]) =
      some { block_count := 1, min_height := 42, max_height := 42,
             expected := 1, missing := 0, gaps := [] } :=
  C8_edge_cases 42 0 (by decide)

/-- C9: a candidate window value of exactly 0 or exactly 100000000 is never
accepted (every accepted candidate c satisfies 0 < c < 100000000), and
every height recorded in the observed map of any scan lies strictly
between 0 and 100000000. -/
theorem C9_plausibility_bounds :
    (∀ (e : List Nat) (offs : List Nat) (c : Nat),
        tryWindows e offs = some c → 0 < c ∧ c < 100000000) ∧
    ∀ indexBytes dataBytes : List Nat,
      ∀ p ∈ (scanBytes indexBytes dataBytes).block_heights,
        0 < p.1 ∧ p.1 < 100000000 :=
  ⟨fun _ offs c h => tryWindows_bound offs c h,
   fun idxB dataB => scanBytes_heights_bounded idxB dataB⟩

/-- Witness for C9: the accepted candidate 10 of payloadFor 10 and the
recorded map entry (17, 4) of the idx5/data5 scan are inside the bound. -/
theorem C9_plausibility_bounds_witness :
    (0 < 10 ∧ 10 < 100000000) ∧ (0 < 17 ∧ 17 < 100000000) :=
  ⟨C9_plausibility_bounds.1 (payloadFor 10) [8, 16, 24, 32, 40, 48] 10 (by decide),
   C9_plausibility_bounds.2 idx5 data5 (17, 4) (by decide)⟩

/-- C10: parse_state_change_entry is total by construction (it is a Lean
function into pairs; in the source every raising operation is guarded or
wrapped, so the function returns a pair on every byte string); every input
shorter than 3 bytes yields (none, none); and a non-none block height is
returned only when the decoded encoder type is 2 and the input is at least
24 bytes long. -/
theorem C10_parse_total (e : List Nat) :
    (e.length < 3 → parse_state_change_entry e = (none, none)) ∧
    ∀ h, (parse_state_change_entry e).2 = some h →
      (parse_state_change_entry e).1 = some 2 ∧ 24 ≤ e.length := by
  constructor
  · intro h3
    unfold parse_state_change_entry
    rw [if_pos h3]
  · intro h hsome
    unfold parse_state_change_entry at hsome ⊢
    dsimp only at hsome ⊢
    by_cases c1 : e.length < 3
    · rw [if_pos c1] at hsome
      simp at hsome
    · rw [if_neg c1] at hsome ⊢
      by_cases c2 : (read_uvarint_from_bytes e 0).2 ≥ e.length
      · rw [if_pos c2] at hsome
        simp at hsome
      · rw [if_neg c2] at hsome ⊢
        by_cases c3 : (read_uvarint_from_bytes e 0).2 + 1 ≥ e.length
        · rw [if_pos c3] at hsome
          simp at hsome
        · rw [if_neg c3] at hsome ⊢
          dsimp only at hsome ⊢
          by_cases c4 : (read_uvarint_from_bytes e ((read_uvarint_from_bytes e 0).2 + 1)).1 = 2
              ∧ 24 ≤ e.length
          · refine ⟨?_, c4.2⟩
            rw [c4.1]
          · rw [if_neg c4] at hsome
            simp at hsome

/-- Witness for C10: the one-byte input and the block payload of height 10. -/
theorem C10_parse_total_witness :
    parse_state_change_entry [1] = (none, none) ∧
    ((parse_state_change_entry (payloadFor 10)).1 = some 2 ∧ 24 ≤ (payloadFor 10).length) :=
  ⟨(C10_parse_total [1]).1 (by decide),
   (C10_parse_total (payloadFor 10)).2 10 (by decide)⟩
